import Mathlib

/-!
Verification development for the MPSC ring buffer in `ringbuf.c`
(atomic multi-producer single-consumer ring buffer with contiguous
range reservations and a worker-slot pool).

The embedding is a sequential (single-interleaving) semantics of the C
code: every CAS succeeds on its first attempt, spin loops observe their
awaited condition immediately, and machine 64-bit words are modelled as
`Nat` (with explicit `% 2 ^ 64` where the C arithmetic could overflow;
everywhere else the involved quantities are provably below `2 ^ 64`).
Field and function names follow `ringbuf.c`; the struct field `end` is
rendered `end_` because `end` is a Lean keyword, and the `nworkers`
field is represented by `workers.length`.
-/

namespace RB

/-- `#define RBUF_OFF_MASK (0x00000000ffffffffUL)` -/
def RBUF_OFF_MASK : Nat := 0xffffffff

/-- `#define WRAP_LOCK_BIT (0x8000000000000000UL)` -/
def WRAP_LOCK_BIT : Nat := 0x8000000000000000

/-- `#define RBUF_OFF_MAX (UINT64_MAX & ~WRAP_LOCK_BIT)` -/
def RBUF_OFF_MAX : Nat := 0x7fffffffffffffff

/-- `#define WRAP_COUNTER (0x7fffffff00000000UL)` -/
def WRAP_COUNTER : Nat := 0x7fffffff00000000

/-- `#define WRAP_INCR(x) (((x) + 0x100000000UL) & WRAP_COUNTER)`;
the addition is 64-bit machine arithmetic, hence the `% 2 ^ 64`. -/
def WRAP_INCR (x : Nat) : Nat := ((x + 0x100000000) % 2 ^ 64) &&& WRAP_COUNTER

/-- `#define WORKER_NULL (0x00000000ffffffffUL)` -/
def WORKER_NULL : Nat := 0xffffffff

/-- `struct ringbuf_worker { seen_off; next; }` -/
structure ringbuf_worker where
  seen_off : Nat
  next : Nat
deriving DecidableEq

/-- `struct ringbuf`; `end` is spelled `end_`, and the `nworkers`
field is `workers.length`. -/
structure ringbuf where
  space : Nat
  next : Nat
  end_ : Nat
  used_workers : Nat
  free_workers : Nat
  written : Nat
  workers : List ringbuf_worker
deriving DecidableEq

/-- Read `rbuf->workers[i]` (out-of-range reads never occur on the
paths we verify; the default is arbitrary). -/
def getw (ws : List ringbuf_worker) (i : Nat) : ringbuf_worker :=
  ws.getD i ⟨0, 0⟩

/-- Write `rbuf->workers[i]`. -/
def setw (ws : List ringbuf_worker) (i : Nat) (w : ringbuf_worker) :
    List ringbuf_worker :=
  ws.set i w

/-! ### `ringbuf_setup`

`ringbuf_setup(rbuf, nworkers, length)`: refuse `length >= RBUF_OFF_MASK`
with `EINVAL` (the caller's memory is untouched); otherwise initialise the
ring and thread all workers onto the free-stack.  The result carries the
(possibly unchanged) ring state, the `int` return value and the `errno`
value set by the call (`none` when untouched). -/

def EINVAL : Nat := 22

/-- The `for` loop of `ringbuf_setup`: after `n` iterations it has built
`workers[0..n)` (each with `seen_off = RBUF_OFF_MAX` and `next` pointing
at the previously freed worker) and left `free_workers = n - 1`
(`WORKER_NULL` when `n = 0`). -/
def setup_workers : Nat → List ringbuf_worker × Nat
  | 0 => ([], WORKER_NULL)
  | n + 1 =>
    let p := setup_workers n
    (p.1 ++ [⟨RBUF_OFF_MAX, p.2⟩], n)

def ringbuf_setup (rbuf : ringbuf) (nworkers length : Nat) :
    ringbuf × Int × Option Nat :=
  if RBUF_OFF_MASK ≤ length then
    (rbuf, -1, some EINVAL)
  else
    let p := setup_workers nworkers
    ({ space := length, next := 0, end_ := RBUF_OFF_MAX,
       used_workers := WORKER_NULL, free_workers := p.2,
       written := 0, workers := p.1 }, 0, none)

/-! ### Worker stacks

`push_worker`, `pop_worker` and `try_unlink_worker` from `ringbuf.c`,
under the sequential semantics (each weak CAS succeeds at once).  The
stack is identified by the value of its head word, which the caller
reads from / writes back to the ring. -/

/-- `push_worker(rbuf, stack_head, w)`: returns the new head word and
the updated worker array (`w->next = old_head & RBUF_OFF_MASK`,
`new_head = w_offset | WRAP_INCR(old_head)`). -/
def push_worker (head : Nat) (ws : List ringbuf_worker) (w_offset : Nat) :
    Nat × List ringbuf_worker :=
  let old_head := head
  (w_offset ||| WRAP_INCR old_head,
   setw ws w_offset { getw ws w_offset with next := old_head &&& RBUF_OFF_MASK })

/-- `pop_worker(rbuf, stack_head)`: `none` when the stack is empty;
otherwise the popped worker's offset, the new head word and the updated
worker array (`w->next = WORKER_NULL` after a successful pop). -/
def pop_worker (head : Nat) (ws : List ringbuf_worker) :
    Option (Nat × Nat × List ringbuf_worker) :=
  let old_head := head
  let old_head_offset := old_head &&& RBUF_OFF_MASK
  if old_head_offset = WORKER_NULL then
    none
  else
    let w := getw ws old_head_offset
    some (old_head_offset,
          (w.next &&& RBUF_OFF_MASK) ||| WRAP_INCR old_head,
          setw ws old_head_offset { w with next := WORKER_NULL })

/-- A link location inside the used-stack scan: `none` is
`&rbuf->used_workers`, `some i` is `&rbuf->workers[i].next`. -/
def readLink (rbuf : ringbuf) (pw : Option Nat) : Nat :=
  match pw with
  | none => rbuf.used_workers
  | some i => (getw rbuf.workers i).next

def writeLink (rbuf : ringbuf) (pw : Option Nat) (v : Nat) : ringbuf :=
  match pw with
  | none => { rbuf with used_workers := v }
  | some i =>
      { rbuf with
        workers := setw rbuf.workers i { getw rbuf.workers i with next := v } }

/-- `try_unlink_worker(rbuf, stack_link, old_link)` with the CAS
succeeding: splice the worker `old_link & RBUF_OFF_MASK` out of the
stack (`*stack_link = (w->next & RBUF_OFF_MASK) | WRAP_INCR(old_link)`)
and set its `next` to `WORKER_NULL`. -/
def try_unlink_worker (rbuf : ringbuf) (pw : Option Nat) (old_link : Nat) :
    ringbuf :=
  let old_link_offset := old_link &&& RBUF_OFF_MASK
  let w := getw rbuf.workers old_link_offset
  let new_link := (w.next &&& RBUF_OFF_MASK) ||| WRAP_INCR old_link
  let rbuf1 := writeLink rbuf pw new_link
  { rbuf1 with
    workers := setw rbuf1.workers old_link_offset
      { getw rbuf1.workers old_link_offset with next := WORKER_NULL } }

/-! ### `ringbuf_acquire`

Sequential semantics: `stable_nextoff` returns `rbuf->next` (the wrap
lock is never held at rest in a single-threaded execution) and the CAS
on `rbuf->next` succeeds on the first attempt, so the `do ... while`
loop body runs exactly once. -/

/-- The part of `ringbuf_acquire` up to (and excluding) the CAS on
`rbuf->next`: pop a worker from the free-stack.  No other store is
performed on this path — in particular the popped worker's `seen_off`
still holds whatever it held on the free-stack; the "unstable" value
`next | WRAP_LOCK_BIT` lives only in the local variable `seen_off`. -/
def acquire_precas (rbuf : ringbuf) : Option (ringbuf × Nat) :=
  match pop_worker rbuf.free_workers rbuf.workers with
  | none => none
  | some (wi, fh, ws) => some ({ rbuf with free_workers := fh, workers := ws }, wi)

/-- Everything in `ringbuf_acquire` after the successful CAS: store the
stable `seen` value (`w->seen_off = seen_off & ~WRAP_LOCK_BIT`), push
the worker onto the used-stack, and perform the wrap-lock finalization
(`rbuf->end = next; next = 0;` then release the lock with
`rbuf->next = target & ~WRAP_LOCK_BIT`; note `~WRAP_LOCK_BIT`
is `RBUF_OFF_MAX`). -/
def acquire_commit (rb1 : ringbuf) (wi next seen_off target : Nat) :
    ringbuf × Option (Nat × Nat) :=
  let rb2 := { rb1 with next := target }
  let rb3 := { rb2 with
    workers := setw rb2.workers wi
      { getw rb2.workers wi with seen_off := seen_off &&& RBUF_OFF_MAX } }
  let p := push_worker rb3.used_workers rb3.workers wi
  let rb4 := { rb3 with used_workers := p.1, workers := p.2 }
  if target &&& WRAP_LOCK_BIT ≠ 0 then
    ({ rb4 with end_ := next, next := target &&& RBUF_OFF_MAX }, some (wi, 0))
  else
    (rb4, some (wi, next))

/-- `ringbuf_acquire(rbuf, pw, len)`: the new ring state plus
`some (worker offset, acquired offset)` on success, `none` on failure
(the C function returns `-1` and leaves `*pw = NULL`). -/
def ringbuf_acquire (rbuf : ringbuf) (len : Nat) : ringbuf × Option (Nat × Nat) :=
  match acquire_precas rbuf with
  | none => (rbuf, none)
  | some (rb1, wi) =>
    let seen := rb1.next
    let next := seen &&& RBUF_OFF_MASK
    let seen_off := next ||| WRAP_LOCK_BIT
    let target := next + len
    let written := rb1.written
    if next < written ∧ written ≤ target then
      let p := push_worker rb1.free_workers rb1.workers wi
      ({ rb1 with free_workers := p.1, workers := p.2 }, none)
    else if rb1.space ≤ target then
      let exceed := rb1.space < target
      let target1 := if exceed then WRAP_LOCK_BIT ||| len else 0
      if written ≤ target1 &&& RBUF_OFF_MASK then
        let p := push_worker rb1.free_workers rb1.workers wi
        ({ rb1 with free_workers := p.1, workers := p.2 }, none)
      else
        let target2 := target1 ||| WRAP_INCR (seen &&& WRAP_COUNTER)
        acquire_commit rb1 wi next seen_off target2
    else
      let target2 := target ||| (seen &&& WRAP_COUNTER)
      acquire_commit rb1 wi next seen_off target2

/-- `ringbuf_produce(rbuf, w)`: clear the worker's `seen_off` back to
the `RBUF_OFF_MAX` sentinel. -/
def ringbuf_produce (rbuf : ringbuf) (wi : Nat) : ringbuf :=
  { rbuf with
    workers := setw rbuf.workers wi
      { getw rbuf.workers wi with seen_off := RBUF_OFF_MAX } }

/-! ### `ringbuf_consume`

The scan over the used-stack and the `retry` loop, in the sequential
semantics: every `seen_off` read is already stable (its
`WRAP_LOCK_BIT` spin exits at once) and every `try_unlink_worker`
CAS succeeds.  Both loops are expressed with a fuel parameter; the
scan's fuel `workers.length + 1` and the retry fuel `2` are sufficient
on every state the theorems below consider. -/

/-- The produced-worker branch of the consume scan: splice the worker
out of the used-stack (`try_unlink_worker`), re-store the
`RBUF_OFF_MAX` sentinel in its `seen_off`, and push it back onto the
free-stack. -/
def consume_unlink_step (rbuf : ringbuf) (pw : Option Nat) (w_link w_off : Nat) :
    ringbuf :=
  let rb1 := try_unlink_worker rbuf pw w_link
  let rb2 := { rb1 with
    workers := setw rb1.workers w_off
      { getw rb1.workers w_off with seen_off := RBUF_OFF_MAX } }
  let p := push_worker rb2.free_workers rb2.workers w_off
  { rb2 with free_workers := p.1, workers := p.2 }

/-- The `while (w_off != WORKER_NULL)` scan of `ringbuf_consume`:
walks the used-stack from link location `pw`, unlinking produced
workers (`seen_off == RBUF_OFF_MAX`) and folding every other stable
`seen_off` that is not behind `written` into `ready`.  Returns the
mutated ring and the final `ready`. -/
def consume_scan (written : Nat) : Nat → ringbuf → Option Nat → Nat → ringbuf × Nat
  | 0, rbuf, _, ready => (rbuf, ready)
  | fuel + 1, rbuf, pw, ready =>
    let w_link := readLink rbuf pw
    let w_off := w_link &&& RBUF_OFF_MASK
    if w_off = WORKER_NULL then
      (rbuf, ready)
    else
      let w := getw rbuf.workers w_off
      let seen_off := w.seen_off
      if seen_off = RBUF_OFF_MAX then
        consume_scan written fuel (consume_unlink_step rbuf pw w_link w_off) pw ready
      else
        let ready1 := if written ≤ seen_off then min seen_off ready else ready
        consume_scan written fuel rbuf (some w_off) ready1

/-- One `retry` frame of `ringbuf_consume` (`written` is the local
variable read once at entry and reset to `0` on the wrap-around
transition).  Returns the ring, `towrite`, and `some offset` when the
C code stores to `*offset` (`none` on the early `return 0`). -/
def consume_loop : Nat → ringbuf → Nat → ringbuf × Nat × Option Nat
  | 0, rbuf, _ => (rbuf, 0, none)
  | fuel + 1, rbuf, written =>
    let next := rbuf.next &&& RBUF_OFF_MASK
    if written = next then
      (rbuf, 0, none)
    else
      let p := consume_scan written (rbuf.workers.length + 1) rbuf none RBUF_OFF_MAX
      let rb1 := p.1
      let ready := p.2
      if next < written then
        let e := min rb1.space rb1.end_
        if ready = RBUF_OFF_MAX ∧ written = e then
          consume_loop fuel { rb1 with end_ := RBUF_OFF_MAX, written := 0 } 0
        else
          (rb1, min ready e - written, some written)
      else
        (rb1, min ready next - written, some written)

/-- `ringbuf_consume(rbuf, &offset)`. -/
def ringbuf_consume (rbuf : ringbuf) : ringbuf × Nat × Option Nat :=
  consume_loop 2 rbuf rbuf.written

/-- `ringbuf_release(rbuf, nbytes)`. -/
def ringbuf_release (rbuf : ringbuf) (nbytes : Nat) : ringbuf :=
  let nwritten := rbuf.written + nbytes
  { rbuf with written := if nwritten = rbuf.space then 0 else nwritten }

/-! ### Intrusive stack representation

`repStack ws link l` states that following the masked `next` links from
the link word `link` visits exactly the worker offsets in `l` (all in
range) and terminates at `WORKER_NULL`.  It is `Bool`-valued so that
concrete instances can be settled by `decide`. -/

def repStack (ws : List ringbuf_worker) : Nat → List Nat → Bool
  | link, [] => link &&& RBUF_OFF_MASK == WORKER_NULL
  | link, i :: rest =>
    (link &&& RBUF_OFF_MASK == i) && decide (i < ws.length)
      && repStack ws (getw ws i).next rest

/-- A well-formed stack: the chain shape, no duplicate offsets, and a
worker count below the `WORKER_NULL` sentinel. -/
def StackOk (ws : List ringbuf_worker) (head : Nat) (l : List Nat) : Prop :=
  repStack ws head l = true ∧ l.Nodup ∧ ws.length ≤ WORKER_NULL

/-- The `ready` accumulation of the consume scan, as a pure fold over
the list of worker offsets on the used-stack: fold in every `seen_off`
that is not behind `written` (`ready = MIN(seen_off, ready)`). -/
def scanFold (ws : List ringbuf_worker) (written : Nat) (l : List Nat)
    (r : Nat) : Nat :=
  l.foldl (fun r i =>
    if written ≤ (getw ws i).seen_off then min (getw ws i).seen_off r else r) r

/-- The `ready` offset computed by the consume scan over used-stack
contents `l`: the smallest `seen_off` that is at or ahead of `written`,
or the `RBUF_OFF_MAX` sentinel when no in-flight producer constrains
the consumer (workers that have produced carry `seen_off =
RBUF_OFF_MAX` and do not lower the minimum). -/
def readySpec (ws : List ringbuf_worker) (written : Nat) (l : List Nat) : Nat :=
  scanFold ws written l RBUF_OFF_MAX

/-- Well-formedness of the scan position: the chain from link location
`pw` is exactly `l`, duplicate-free, and the interior link location
(when any) is a traversed worker not in the remainder. -/
def ScanOk (rb : ringbuf) (pw : Option Nat) (l : List Nat) : Prop :=
  repStack rb.workers (readLink rb pw) l = true ∧ l.Nodup ∧
  rb.workers.length ≤ WORKER_NULL ∧
  ∀ j, pw = some j → j < rb.workers.length ∧ j ∉ l

/-! ### Reachable states

`Steps rb k` holds when `rb` is reachable from a freshly set-up ring
by a sequence of operations whose debug assertions all hold, and `k`
counts the acquires that wrapped (took the `target >= rbuf->space`
branch).  This is the sequential reachability relation the invariant
claims quantify over. -/

/-- `1` when this acquire succeeds and wraps (exact-fit or wrap-lock),
else `0`. -/
def acquire_wrap_count (rb : ringbuf) (len : Nat) : Nat :=
  if (ringbuf_acquire rb len).2.isSome
      ∧ rb.space ≤ (rb.next &&& RBUF_OFF_MASK) + len
  then 1 else 0

inductive Steps : ringbuf → Nat → Prop
  | init (junk : ringbuf) (nworkers length : Nat)
      (h : length < RBUF_OFF_MASK) :
      Steps (ringbuf_setup junk nworkers length).1 0
  | acq {rb : ringbuf} {k : Nat} (len : Nat) (hs : Steps rb k)
      (h0 : 0 < len) (h1 : len ≤ rb.space) :
      Steps (ringbuf_acquire rb len).1 (k + acquire_wrap_count rb len)
  | produce {rb : ringbuf} {k : Nat} (wi : Nat) (hs : Steps rb k) :
      Steps (ringbuf_produce rb wi) k
  | consume {rb : ringbuf} {k : Nat} (hs : Steps rb k) :
      Steps (ringbuf_consume rb).1 k
  | release {rb : ringbuf} {k : Nat} (n : Nat) (hs : Steps rb k)
      (h1 : rb.written + n ≤ rb.space) :
      Steps (ringbuf_release rb n) k

/-- Junk memory handed to `ringbuf_setup` in the concrete scenarios. -/
def junkState : ringbuf := ⟨0, 0, 0, 0, 0, 0, []⟩

/-- A freshly set-up ring: `space = 1000`, two workers. -/
def demoRing : ringbuf := (ringbuf_setup junkState 2 1000).1

/-- `demoRing` after `acquire(4)` (held by worker 1, not yet produced). -/
def demoAcq : ringbuf × Option (Nat × Nat) := ringbuf_acquire demoRing 4

/-- ... after the producer committed (`produce`). -/
def demoProduced : ringbuf := ringbuf_produce demoAcq.1 1

/-- A wrap-pending state: produce and release 600 bytes, then a
wrapping `acquire(500)` publishes `end = 600` and `produce` commits;
the consumer has not yet drained the tail. -/
def demoWrapped : ringbuf :=
  let a := ringbuf_acquire demoRing 600
  let b := ringbuf_produce a.1 1
  let c := ringbuf_consume b
  let d := ringbuf_release c.1 600
  let e := ringbuf_acquire d 500
  ringbuf_produce e.1 1

/-! ### Bit-arithmetic toolkit

The C code packs `(position, wrap counter, wrap lock)` into single
64-bit words manipulated through masks; these lemmas convert the
masking expressions into plain arithmetic. -/

theorem land_split {r s : Nat} (i : Nat) (hr : r < 2 ^ i) (hs : s < 2 ^ i)
    (a b : Nat) :
    (2 ^ i * a + r) &&& (2 ^ i * b + s) = 2 ^ i * (a &&& b) + (r &&& s) := by
  apply Nat.eq_of_testBit_eq
  intro j
  have h1 := Nat.testBit_mul_pow_two_add a hr j
  have h2 := Nat.testBit_mul_pow_two_add b hs j
  have h3 := Nat.testBit_mul_pow_two_add (a &&& b) (Nat.and_lt_two_pow r hs) j
  rw [Nat.testBit_and, h1, h2, h3]
  by_cases hj : j < i <;> simp [hj, Nat.testBit_and]

theorem lor_split {r s : Nat} (i : Nat) (hr : r < 2 ^ i) (hs : s < 2 ^ i)
    (a b : Nat) :
    (2 ^ i * a + r) ||| (2 ^ i * b + s) = 2 ^ i * (a ||| b) + (r ||| s) := by
  apply Nat.eq_of_testBit_eq
  intro j
  have h1 := Nat.testBit_mul_pow_two_add a hr j
  have h2 := Nat.testBit_mul_pow_two_add b hs j
  have h3 := Nat.testBit_mul_pow_two_add (a ||| b) (Nat.or_lt_two_pow hr hs) j
  rw [Nat.testBit_or, h1, h2, h3]
  by_cases hj : j < i <;> simp [hj, Nat.testBit_or]

theorem land_off_mask (x : Nat) : x &&& RBUF_OFF_MASK = x % 2 ^ 32 := by
  have : RBUF_OFF_MASK = 2 ^ 32 - 1 := by norm_num [RBUF_OFF_MASK]
  rw [this, Nat.and_pow_two_sub_one_eq_mod]

theorem land_wrap_counter (x : Nat) :
    x &&& WRAP_COUNTER = 2 ^ 32 * (x / 2 ^ 32 % 2 ^ 31) := by
  have hx : x = 2 ^ 32 * (x / 2 ^ 32) + x % 2 ^ 32 := (Nat.div_add_mod x _).symm
  have hm : WRAP_COUNTER = 2 ^ 32 * (2 ^ 31 - 1) + 0 := by norm_num [WRAP_COUNTER]
  rw [hm]
  conv_lhs => rw [hx]
  rw [land_split 32 (Nat.mod_lt _ (by norm_num)) (by norm_num)]
  rw [Nat.and_pow_two_sub_one_eq_mod, Nat.and_zero, Nat.add_zero]

theorem land_off_max (x : Nat) : x &&& RBUF_OFF_MAX = x % 2 ^ 63 := by
  have : RBUF_OFF_MAX = 2 ^ 63 - 1 := by norm_num [RBUF_OFF_MAX]
  rw [this, Nat.and_pow_two_sub_one_eq_mod]

theorem wrap_incr_eq (x : Nat) :
    WRAP_INCR x = 2 ^ 32 * ((x / 2 ^ 32 + 1) % 2 ^ 31) := by
  rw [WRAP_INCR, land_wrap_counter]
  have h1 : (x + 0x100000000) % 2 ^ 64 / 2 ^ 32 % 2 ^ 31
      = (x / 2 ^ 32 + 1) % 2 ^ 31 := by omega
  rw [h1]

theorem lor_low_high {p : Nat} (hp : p < 2 ^ 32) (c : Nat) :
    p ||| 2 ^ 32 * c = 2 ^ 32 * c + p := by
  rw [Nat.lor_comm, ← Nat.mul_add_lt_is_or hp]

theorem lor_high_low {p : Nat} (hp : p < 2 ^ 32) (c : Nat) :
    2 ^ 32 * c ||| p = 2 ^ 32 * c + p := by
  rw [← Nat.mul_add_lt_is_or hp]

theorem setw_length (ws : List ringbuf_worker) (i : Nat) (w : ringbuf_worker) :
    (setw ws i w).length = ws.length :=
  List.length_set ..

theorem getw_setw_ne (ws : List ringbuf_worker) {i j : Nat} (h : i ≠ j)
    (w : ringbuf_worker) : getw (setw ws i w) j = getw ws j := by
  simp [getw, setw, List.getElem?_set_ne h]

theorem getw_setw_self (ws : List ringbuf_worker) {i : Nat} (h : i < ws.length)
    (w : ringbuf_worker) : getw (setw ws i w) i = w := by
  simp [getw, setw, List.getElem?_set_self h]

theorem repStack_mem_lt {ws : List ringbuf_worker} :
    ∀ {link : Nat} {l : List Nat}, repStack ws link l = true →
      ∀ i ∈ l, i < ws.length := by
  intro link l
  induction l generalizing link with
  | nil => intro _ i hi; cases hi
  | cons a rest ih =>
    intro h i hi
    rw [repStack, Bool.and_eq_true, Bool.and_eq_true] at h
    rcases List.mem_cons.mp hi with hi | hi
    · subst hi; exact of_decide_eq_true h.1.2
    · exact ih h.2 i hi

theorem repStack_congr {ws ws' : List ringbuf_worker}
    (hlen : ws'.length = ws.length) :
    ∀ {link : Nat} {l : List Nat}, (∀ j ∈ l, getw ws' j = getw ws j) →
      repStack ws link l = true → repStack ws' link l = true := by
  intro link l
  induction l generalizing link with
  | nil => intro _ h; exact h
  | cons a rest ih =>
    intro hsame h
    rw [repStack, Bool.and_eq_true, Bool.and_eq_true] at h ⊢
    refine ⟨⟨h.1.1, ?_⟩, ?_⟩
    · rw [hlen]; exact h.1.2
    · rw [hsame a (List.mem_cons_self a rest)]
      exact ih (fun j hj => hsame j (List.mem_cons_of_mem a hj)) h.2

theorem nodup_bounded_length {l : List Nat} {n : Nat} (hd : l.Nodup)
    (hb : ∀ i ∈ l, i < n) : l.length ≤ n := by
  have hsub : l.toFinset ⊆ Finset.range n := by
    intro x hx
    rw [List.mem_toFinset] at hx
    exact Finset.mem_range.2 (hb x hx)
  have := Finset.card_le_card hsub
  rwa [List.toFinset_card_of_nodup hd, Finset.card_range] at this

/-- The consume scan never touches `space`, `next`, `written`, `end_`
or the worker count. -/
theorem consume_scan_state (written : Nat) :
    ∀ (fuel : Nat) (rb : ringbuf) (pw : Option Nat) (ready : Nat),
      (consume_scan written fuel rb pw ready).1.space = rb.space ∧
      (consume_scan written fuel rb pw ready).1.next = rb.next ∧
      (consume_scan written fuel rb pw ready).1.written = rb.written ∧
      (consume_scan written fuel rb pw ready).1.end_ = rb.end_ ∧
      (consume_scan written fuel rb pw ready).1.workers.length
        = rb.workers.length := by
  intro fuel
  induction fuel with
  | zero => exact fun rb pw ready => ⟨rfl, rfl, rfl, rfl, rfl⟩
  | succ n ih =>
    intro rb pw ready
    simp only [consume_scan]
    split
    · exact ⟨rfl, rfl, rfl, rfl, rfl⟩
    split
    · obtain ⟨h1, h2, h3, h4, h5⟩ := ih _ pw ready
      refine ⟨h1.trans ?_, h2.trans ?_, h3.trans ?_, h4.trans ?_, h5.trans ?_⟩ <;>
        cases pw <;>
          simp [consume_unlink_step, try_unlink_worker, writeLink, push_worker,
            setw_length]
    · exact ih _ _ _

theorem repStack_mask {ws : List ringbuf_worker} {link link' : Nat}
    (l : List Nat) (h : link' &&& RBUF_OFF_MASK = link &&& RBUF_OFF_MASK) :
    repStack ws link l = repStack ws link' l := by
  cases l <;> simp [repStack, h]

theorem scanFold_cons (ws : List ringbuf_worker) (written a : Nat)
    (rest : List Nat) (r : Nat) :
    scanFold ws written (a :: rest) r
      = scanFold ws written rest
          (if written ≤ (getw ws a).seen_off
            then min (getw ws a).seen_off r else r) := rfl

theorem scanFold_congr {ws ws' : List ringbuf_worker} {written : Nat} :
    ∀ {l : List Nat} {r : Nat},
      (∀ j ∈ l, (getw ws' j).seen_off = (getw ws j).seen_off) →
      scanFold ws' written l r = scanFold ws written l r := by
  intro l
  induction l with
  | nil => intro r _; rfl
  | cons a rest ih =>
    intro r hsame
    rw [scanFold_cons, scanFold_cons, hsame a (List.mem_cons_self a rest)]
    exact ih fun j hj => hsame j (List.mem_cons_of_mem a hj)

theorem lor_wrap_incr_mask {a : Nat} (x : Nat) (ha : a < 2 ^ 32) :
    (a ||| WRAP_INCR x) &&& RBUF_OFF_MASK = a := by
  rw [wrap_incr_eq, lor_low_high ha, land_off_mask]
  omega

theorem unlink_step_length (rb : ringbuf) (pw : Option Nat) (L i : Nat) :
    (consume_unlink_step rb pw L i).workers.length = rb.workers.length := by
  cases pw <;>
    simp [consume_unlink_step, try_unlink_worker, writeLink, push_worker,
      setw_length]

theorem unlink_step_getw (rb : ringbuf) (pw : Option Nat) (L i j : Nat)
    (hL : L &&& RBUF_OFF_MASK = i) (hji : j ≠ i)
    (hjpw : ∀ k, pw = some k → j ≠ k) :
    getw (consume_unlink_step rb pw L i).workers j = getw rb.workers j := by
  have hij : i ≠ j := Ne.symm hji
  cases pw with
  | none =>
    simp [consume_unlink_step, try_unlink_worker, writeLink, push_worker, hL,
      getw_setw_ne _ hij]
  | some k =>
    have hkj : k ≠ j := Ne.symm (hjpw k rfl)
    simp [consume_unlink_step, try_unlink_worker, writeLink, push_worker, hL,
      getw_setw_ne _ hij, getw_setw_ne _ hkj]

theorem unlink_step_link (rb : ringbuf) (pw : Option Nat) (L i : Nat)
    (hL : L &&& RBUF_OFF_MASK = i)
    (hpwk : ∀ k, pw = some k → k < rb.workers.length ∧ k ≠ i) :
    readLink (consume_unlink_step rb pw L i) pw &&& RBUF_OFF_MASK
      = (getw rb.workers i).next &&& RBUF_OFF_MASK := by
  have hnext32 : (getw rb.workers i).next &&& RBUF_OFF_MASK < 2 ^ 32 := by
    rw [land_off_mask]; exact Nat.mod_lt _ (by norm_num)
  cases pw with
  | none =>
    have hu : (consume_unlink_step rb none L i).used_workers
        = ((getw rb.workers i).next &&& RBUF_OFF_MASK) ||| WRAP_INCR L := by
      simp [consume_unlink_step, try_unlink_worker, writeLink, push_worker, hL]
    show (consume_unlink_step rb none L i).used_workers &&& RBUF_OFF_MASK = _
    rw [hu, lor_wrap_incr_mask _ hnext32]
  | some k =>
    obtain ⟨hkLen, hki⟩ := hpwk k rfl
    have hik : i ≠ k := Ne.symm hki
    have hg : getw (consume_unlink_step rb (some k) L i).workers k
        = { getw rb.workers k with
            next := ((getw rb.workers i).next &&& RBUF_OFF_MASK)
              ||| WRAP_INCR L } := by
      simp [consume_unlink_step, try_unlink_worker, writeLink, push_worker, hL,
        getw_setw_ne _ hik, getw_setw_self _ hkLen]
    show (getw (consume_unlink_step rb (some k) L i).workers k).next
        &&& RBUF_OFF_MASK = _
    rw [hg, lor_wrap_incr_mask _ hnext32]

/-- The consume scan computes exactly the `scanFold` of the used-stack
contents (and in particular `readySpec` when started from the
`RBUF_OFF_MAX` sentinel). -/
theorem consume_scan_ready (written : Nat) :
    ∀ (l : List Nat) (fuel : Nat) (rb : ringbuf) (pw : Option Nat) (ready : Nat),
      ScanOk rb pw l → l.length < fuel → ready ≤ RBUF_OFF_MAX →
      (consume_scan written fuel rb pw ready).2
        = scanFold rb.workers written l ready := by
  intro l
  induction l with
  | nil =>
    intro fuel rb pw ready hok hfuel _
    obtain ⟨hrep, -, -, -⟩ := hok
    rw [repStack, beq_iff_eq] at hrep
    match fuel, hfuel with
    | n + 1, _ =>
      simp only [consume_scan, hrep, if_pos rfl]
      rfl
  | cons i rest ih =>
    intro fuel rb pw ready hok hfuel hready
    obtain ⟨hrep, hnd, hlen, hpw⟩ := hok
    rw [repStack, Bool.and_eq_true, Bool.and_eq_true, beq_iff_eq] at hrep
    obtain ⟨⟨hOff, hiLen⟩, hrest⟩ := hrep
    have hiLen' : i < rb.workers.length := of_decide_eq_true hiLen
    have hiNN : i ≠ WORKER_NULL := Nat.ne_of_lt (lt_of_lt_of_le hiLen' hlen)
    have hndrest : rest.Nodup := (List.nodup_cons.mp hnd).2
    have hirest : i ∉ rest := (List.nodup_cons.mp hnd).1
    match fuel, hfuel with
    | n + 1, hfuel =>
      have hrestlen : rest.length < n := by
        simpa using Nat.lt_of_succ_lt_succ hfuel
      simp only [consume_scan, hOff, if_neg hiNN]
      by_cases hseen : (getw rb.workers i).seen_off = RBUF_OFF_MAX
      · -- produced worker: spliced out, scan continues from the same link
        rw [if_pos hseen]
        have hjpw : ∀ j ∈ rest, ∀ k, pw = some k → j ≠ k := by
          intro j hj k hk he
          exact ((hpw k hk).2 (he ▸ List.mem_cons_of_mem i hj)).elim
        set rb3 := consume_unlink_step rb pw (readLink rb pw) i with hrb3
        have hlen3 : rb3.workers.length = rb.workers.length :=
          unlink_step_length ..
        have hsame : ∀ j ∈ rest, getw rb3.workers j = getw rb.workers j := by
          intro j hj
          exact unlink_step_getw rb pw _ i j hOff
            (fun h => hirest (h ▸ hj)) (hjpw j hj)
        have hlink3 : readLink rb3 pw &&& RBUF_OFF_MASK
            = (getw rb.workers i).next &&& RBUF_OFF_MASK := by
          refine unlink_step_link rb pw _ i hOff ?_
          intro k hk
          exact ⟨(hpw k hk).1,
            fun h => (hpw k hk).2 (h ▸ List.mem_cons_self i rest)⟩
        have hok3 : ScanOk rb3 pw rest := by
          refine ⟨?_, hndrest, by rw [hlen3]; exact hlen, ?_⟩
          · rw [← repStack_mask rest hlink3]
            exact repStack_congr hlen3 hsame hrest
          · intro j hj
            exact ⟨hlen3 ▸ (hpw j hj).1,
              fun hmem => (hpw j hj).2 (List.mem_cons_of_mem i hmem)⟩
        rw [ih n rb3 pw ready hok3 hrestlen hready]
        have hfoldstep : scanFold rb.workers written (i :: rest) ready
            = scanFold rb.workers written rest ready := by
          rw [scanFold_cons, hseen]
          have hmin : min RBUF_OFF_MAX ready = ready := Nat.min_eq_right hready
          split <;> simp [hmin]
        rw [hfoldstep]
        exact scanFold_congr fun j hj => by rw [hsame j hj]
      · -- in-flight worker: fold its seen offset into ready and advance
        rw [if_neg hseen]
        have hok' : ScanOk rb (some i) rest := by
          refine ⟨hrest, hndrest, hlen, ?_⟩
          intro j hj
          cases hj
          exact ⟨hiLen', hirest⟩
        have hready' :
            (if written ≤ (getw rb.workers i).seen_off
              then min (getw rb.workers i).seen_off ready else ready)
            ≤ RBUF_OFF_MAX := by
          split
          · exact le_trans (Nat.min_le_right _ _) hready
          · exact hready
        rw [ih n rb (some i) _ hok' hrestlen hready']
        rfl

/-! ### Arithmetic shapes of the `target` words built by `ringbuf_acquire` -/

theorem land_lock_eq_zero {y : Nat} (hy : y < 2 ^ 63) :
    y &&& WRAP_LOCK_BIT = 0 := by
  have h1 : (WRAP_LOCK_BIT : Nat) = 2 ^ 63 := by norm_num [WRAP_LOCK_BIT]
  rw [h1, Nat.and_two_pow, Nat.testBit_lt_two_pow hy]
  rfl

theorem land_lock_of_add {y : Nat} (hy : y < 2 ^ 63) :
    (2 ^ 63 + y) &&& WRAP_LOCK_BIT = 2 ^ 63 := by
  have h1 : (WRAP_LOCK_BIT : Nat) = 2 ^ 63 := by norm_num [WRAP_LOCK_BIT]
  rw [h1, Nat.and_two_pow, Nat.testBit_two_pow_add_eq,
    Nat.testBit_lt_two_pow hy]
  simp

theorem lock_or_len_eq (len : Nat) (hl : len < 2 ^ 63) :
    WRAP_LOCK_BIT ||| len = 2 ^ 63 + len := by
  have h1 : (WRAP_LOCK_BIT : Nat) = 2 ^ 63 * 1 := by norm_num [WRAP_LOCK_BIT]
  rw [h1, ← Nat.mul_add_lt_is_or hl 1]
  omega

theorem seen_store_eq {pos : Nat} (hp : pos < 2 ^ 32) :
    (pos ||| WRAP_LOCK_BIT) &&& RBUF_OFF_MAX = pos := by
  rw [Nat.lor_comm, lock_or_len_eq pos (by omega), land_off_max]
  omega

theorem target_nonwrap {x t : Nat} (hx : x < 2 ^ 63) (ht : t < 2 ^ 32) :
    t ||| (x &&& WRAP_COUNTER) = 2 ^ 32 * (x / 2 ^ 32) + t := by
  rw [land_wrap_counter, lor_low_high ht]
  have h1 : x / 2 ^ 32 < 2 ^ 31 := by omega
  rw [Nat.mod_eq_of_lt h1]

theorem target_exactfit {x : Nat} (hx : x < 2 ^ 63) :
    (0 : Nat) ||| WRAP_INCR (x &&& WRAP_COUNTER)
      = 2 ^ 32 * ((x / 2 ^ 32 + 1) % 2 ^ 31) := by
  rw [Nat.zero_or, wrap_incr_eq, land_wrap_counter]
  have h1 : x / 2 ^ 32 < 2 ^ 31 := by omega
  have h2 : 2 ^ 32 * (x / 2 ^ 32 % 2 ^ 31) / 2 ^ 32 = x / 2 ^ 32 % 2 ^ 31 :=
    Nat.mul_div_cancel_left _ (by norm_num)
  rw [h2, Nat.mod_eq_of_lt h1]

theorem target_exceed {x len : Nat} (hx : x < 2 ^ 63) (hl : len < 2 ^ 32) :
    (WRAP_LOCK_BIT ||| len) ||| WRAP_INCR (x &&& WRAP_COUNTER)
      = 2 ^ 63 + (2 ^ 32 * ((x / 2 ^ 32 + 1) % 2 ^ 31) + len) := by
  have h1 : x / 2 ^ 32 < 2 ^ 31 := by omega
  have hinc : WRAP_INCR (x &&& WRAP_COUNTER)
      = 2 ^ 32 * ((x / 2 ^ 32 + 1) % 2 ^ 31) := by
    rw [wrap_incr_eq, land_wrap_counter]
    have h2 : 2 ^ 32 * (x / 2 ^ 32 % 2 ^ 31) / 2 ^ 32 = x / 2 ^ 32 % 2 ^ 31 :=
      Nat.mul_div_cancel_left _ (by norm_num)
    rw [h2, Nat.mod_eq_of_lt h1]
  rw [lock_or_len_eq len (by omega), hinc]
  have hc : (x / 2 ^ 32 + 1) % 2 ^ 31 < 2 ^ 31 := Nat.mod_lt _ (by norm_num)
  have hzero : (0 : Nat) < 2 ^ 32 := by norm_num
  have hsum : 2 ^ 63 + len = 2 ^ 32 * 2 ^ 31 + len := by norm_num
  have hsplit := lor_split 32 hl hzero (2 ^ 31) ((x / 2 ^ 32 + 1) % 2 ^ 31)
  rw [Nat.add_zero, Nat.or_zero] at hsplit
  have hor : (2 : Nat) ^ 31 ||| (x / 2 ^ 32 + 1) % 2 ^ 31
      = 2 ^ 31 + (x / 2 ^ 32 + 1) % 2 ^ 31 := by
    have h := Nat.mul_add_lt_is_or hc 1
    rw [Nat.mul_one] at h
    exact h.symm
  rw [hsum, hsplit, hor]
  omega

/-- Projections of `acquire_commit`: the returned pair and the fields
the post-CAS code touches, split on whether the committed `target`
carries the wrap lock. -/
theorem acquire_commit_proj (rb1 : ringbuf) (wi next seen_off target : Nat) :
    (acquire_commit rb1 wi next seen_off target).1.space = rb1.space ∧
    (acquire_commit rb1 wi next seen_off target).1.written = rb1.written ∧
    (if target &&& WRAP_LOCK_BIT ≠ 0 then
      (acquire_commit rb1 wi next seen_off target).2 = some (wi, 0) ∧
      (acquire_commit rb1 wi next seen_off target).1.next
        = target &&& RBUF_OFF_MAX ∧
      (acquire_commit rb1 wi next seen_off target).1.end_ = next
    else
      (acquire_commit rb1 wi next seen_off target).2 = some (wi, next) ∧
      (acquire_commit rb1 wi next seen_off target).1.next = target ∧
      (acquire_commit rb1 wi next seen_off target).1.end_ = rb1.end_) := by
  unfold acquire_commit
  split <;> rename_i h <;> simp [h, push_worker]

theorem acquire_commit_ne_none (rb1 : ringbuf) (wi next seen_off target : Nat) :
    (acquire_commit rb1 wi next seen_off target).2 ≠ none := by
  unfold acquire_commit
  split <;> simp

theorem acquire_precas_empty (rb : ringbuf)
    (h : rb.free_workers &&& RBUF_OFF_MASK = WORKER_NULL) :
    acquire_precas rb = none := by
  unfold acquire_precas pop_worker
  simp [h]

theorem acquire_precas_pop (rb : ringbuf)
    (h : ¬ rb.free_workers &&& RBUF_OFF_MASK = WORKER_NULL) :
    acquire_precas rb = some
      ({ rb with
          free_workers :=
            ((getw rb.workers (rb.free_workers &&& RBUF_OFF_MASK)).next
              &&& RBUF_OFF_MASK) ||| WRAP_INCR rb.free_workers,
          workers := setw rb.workers (rb.free_workers &&& RBUF_OFF_MASK)
            { getw rb.workers (rb.free_workers &&& RBUF_OFF_MASK) with
                next := WORKER_NULL } },
        rb.free_workers &&& RBUF_OFF_MASK) := by
  unfold acquire_precas pop_worker
  simp [h]

/-- On every failure path `ringbuf_acquire` leaves `next`, `written`,
`space` and `end` unchanged (only the worker stacks are touched). -/
theorem acquire_fail_state (rb : ringbuf) (len : Nat)
    (h : (ringbuf_acquire rb len).2 = none) :
    (ringbuf_acquire rb len).1.next = rb.next ∧
    (ringbuf_acquire rb len).1.written = rb.written ∧
    (ringbuf_acquire rb len).1.space = rb.space ∧
    (ringbuf_acquire rb len).1.end_ = rb.end_ := by
  by_cases hfree : rb.free_workers &&& RBUF_OFF_MASK = WORKER_NULL
  · rw [ringbuf_acquire, acquire_precas_empty rb hfree]
    exact ⟨rfl, rfl, rfl, rfl⟩
  · rw [ringbuf_acquire, acquire_precas_pop rb hfree] at h ⊢
    dsimp only at h ⊢
    split_ifs at h ⊢ <;>
      first
        | exact ⟨rfl, rfl, rfl, rfl⟩
        | exact absurd h (acquire_commit_ne_none _ _ _ _ _)

/-- Failure characterization of `ringbuf_acquire`: it fails exactly
when the free worker-stack is empty, or the reservation would lap the
consumer directly, or the wrap / exact-fit reservation would lap the
consumer after wrapping. -/
theorem acquire_fail_iff (rb : ringbuf) (len : Nat) (hl32 : len < 2 ^ 32) :
    (ringbuf_acquire rb len).2 = none ↔
      (rb.free_workers &&& RBUF_OFF_MASK = WORKER_NULL
      ∨ (rb.next &&& RBUF_OFF_MASK < rb.written
          ∧ rb.written ≤ (rb.next &&& RBUF_OFF_MASK) + len)
      ∨ (rb.space ≤ (rb.next &&& RBUF_OFF_MASK) + len
          ∧ rb.written ≤ (if rb.space < (rb.next &&& RBUF_OFF_MASK) + len
              then len else 0))) := by
  have hm : (WRAP_LOCK_BIT ||| len) &&& RBUF_OFF_MASK = len := by
    rw [lock_or_len_eq len (by omega), land_off_mask]; omega
  by_cases hfree : rb.free_workers &&& RBUF_OFF_MASK = WORKER_NULL
  · rw [ringbuf_acquire, acquire_precas_empty rb hfree]
    simp [hfree]
  · rw [ringbuf_acquire, acquire_precas_pop rb hfree]
    dsimp only
    have hie : (if rb.space < (rb.next &&& RBUF_OFF_MASK) + len
          then WRAP_LOCK_BIT ||| len else 0) &&& RBUF_OFF_MASK
        = if rb.space < (rb.next &&& RBUF_OFF_MASK) + len then len else 0 := by
      split
      · exact hm
      · simp
    rw [hie]
    split_ifs <;>
      first
        | exact iff_of_true rfl (by tauto)
        | exact iff_of_false (acquire_commit_ne_none _ _ _ _ _) (by tauto)

/-- Success characterization of `ringbuf_acquire`: the worker is the
top of the free-stack, the first-guard don't-lap condition fails, and
the outcome is one of the three commit shapes (in-place, exact-fit
wrap, wrap-lock wrap), with the exact new `next` word. -/
theorem acquire_success_spec (rb : ringbuf) (len wi off : Nat)
    (hsp : rb.space < RBUF_OFF_MASK) (hn : rb.next < 2 ^ 63)
    (hlen : len ≤ rb.space)
    (h : (ringbuf_acquire rb len).2 = some (wi, off)) :
    wi = rb.free_workers &&& RBUF_OFF_MASK ∧
    (ringbuf_acquire rb len).1.space = rb.space ∧
    (ringbuf_acquire rb len).1.written = rb.written ∧
    ¬(rb.next &&& RBUF_OFF_MASK < rb.written
        ∧ rb.written ≤ (rb.next &&& RBUF_OFF_MASK) + len) ∧
    (((rb.next &&& RBUF_OFF_MASK) + len < rb.space
        ∧ off = rb.next &&& RBUF_OFF_MASK
        ∧ (ringbuf_acquire rb len).1.next
            = 2 ^ 32 * (rb.next / 2 ^ 32) + ((rb.next &&& RBUF_OFF_MASK) + len)
        ∧ (ringbuf_acquire rb len).1.end_ = rb.end_)
     ∨ ((rb.next &&& RBUF_OFF_MASK) + len = rb.space
        ∧ 0 < rb.written
        ∧ off = rb.next &&& RBUF_OFF_MASK
        ∧ (ringbuf_acquire rb len).1.next
            = 2 ^ 32 * ((rb.next / 2 ^ 32 + 1) % 2 ^ 31)
        ∧ (ringbuf_acquire rb len).1.end_ = rb.end_)
     ∨ (rb.space < (rb.next &&& RBUF_OFF_MASK) + len
        ∧ len < rb.written
        ∧ off = 0
        ∧ (ringbuf_acquire rb len).1.next
            = 2 ^ 32 * ((rb.next / 2 ^ 32 + 1) % 2 ^ 31) + len
        ∧ (ringbuf_acquire rb len).1.end_ = rb.next &&& RBUF_OFF_MASK)) := by
  have hl32 : len < 2 ^ 32 := by
    have : RBUF_OFF_MASK < 2 ^ 32 := by norm_num [RBUF_OFF_MASK]
    omega
  have hpos : rb.next &&& RBUF_OFF_MASK < 2 ^ 32 := by
    rw [land_off_mask]; exact Nat.mod_lt _ (by norm_num)
  have hdiv : rb.next / 2 ^ 32 < 2 ^ 31 := by omega
  have hmod : (rb.next / 2 ^ 32 + 1) % 2 ^ 31 < 2 ^ 31 := Nat.mod_lt _ (by norm_num)
  by_cases hfree : rb.free_workers &&& RBUF_OFF_MASK = WORKER_NULL
  · rw [ringbuf_acquire, acquire_precas_empty rb hfree] at h
    exact absurd h (by simp)
  · rw [ringbuf_acquire, acquire_precas_pop rb hfree] at h ⊢
    dsimp only at h ⊢
    have hie : (if rb.space < (rb.next &&& RBUF_OFF_MASK) + len
          then WRAP_LOCK_BIT ||| len else 0) &&& RBUF_OFF_MASK
        = if rb.space < (rb.next &&& RBUF_OFF_MASK) + len then len else 0 := by
      split
      · rw [lock_or_len_eq len (by omega), land_off_mask]; omega
      · simp
    rw [hie] at h ⊢
    split_ifs at h ⊢ with h1 h2 h3 h4 h5
    · -- wrap-lock wrap (exceed)
      have hlenw : len < rb.written := by omega
      have htgt : (WRAP_LOCK_BIT ||| len) ||| WRAP_INCR (rb.next &&& WRAP_COUNTER)
          = 2 ^ 63 + (2 ^ 32 * ((rb.next / 2 ^ 32 + 1) % 2 ^ 31) + len) :=
        target_exceed hn hl32
      have hy : 2 ^ 32 * ((rb.next / 2 ^ 32 + 1) % 2 ^ 31) + len < 2 ^ 63 := by
        omega
      have hproj := acquire_commit_proj
        ({ rb with
            free_workers :=
              ((getw rb.workers (rb.free_workers &&& RBUF_OFF_MASK)).next
                &&& RBUF_OFF_MASK) ||| WRAP_INCR rb.free_workers,
            workers := setw rb.workers (rb.free_workers &&& RBUF_OFF_MASK)
              { getw rb.workers (rb.free_workers &&& RBUF_OFF_MASK) with
                  next := WORKER_NULL } })
        (rb.free_workers &&& RBUF_OFF_MASK) (rb.next &&& RBUF_OFF_MASK)
        ((rb.next &&& RBUF_OFF_MASK) ||| WRAP_LOCK_BIT)
        ((WRAP_LOCK_BIT ||| len) ||| WRAP_INCR (rb.next &&& WRAP_COUNTER))
      have hcond : ((WRAP_LOCK_BIT ||| len)
            ||| WRAP_INCR (rb.next &&& WRAP_COUNTER)) &&& WRAP_LOCK_BIT ≠ 0 := by
        rw [htgt, land_lock_of_add hy]
        norm_num
      rw [if_pos hcond] at hproj
      obtain ⟨hsp', hwr', hres, hnx, hend⟩ := hproj
      rw [hres] at h
      have hwi : wi = rb.free_workers &&& RBUF_OFF_MASK ∧ off = 0 := by
        have hpq := Option.some.inj h.symm
        exact ⟨congrArg Prod.fst hpq, congrArg Prod.snd hpq⟩
      refine ⟨hwi.1, hsp', hwr', h1, Or.inr (Or.inr ⟨h3, hlenw, hwi.2, ?_, hend⟩)⟩
      rw [hnx, htgt, land_off_max]
      omega
    · -- exact-fit wrap
      have hfit : (rb.next &&& RBUF_OFF_MASK) + len = rb.space := by omega
      have hwpos : 0 < rb.written := by omega
      have htgt : (0 : Nat) ||| WRAP_INCR (rb.next &&& WRAP_COUNTER)
          = 2 ^ 32 * ((rb.next / 2 ^ 32 + 1) % 2 ^ 31) := target_exactfit hn
      have hproj := acquire_commit_proj
        ({ rb with
            free_workers :=
              ((getw rb.workers (rb.free_workers &&& RBUF_OFF_MASK)).next
                &&& RBUF_OFF_MASK) ||| WRAP_INCR rb.free_workers,
            workers := setw rb.workers (rb.free_workers &&& RBUF_OFF_MASK)
              { getw rb.workers (rb.free_workers &&& RBUF_OFF_MASK) with
                  next := WORKER_NULL } })
        (rb.free_workers &&& RBUF_OFF_MASK) (rb.next &&& RBUF_OFF_MASK)
        ((rb.next &&& RBUF_OFF_MASK) ||| WRAP_LOCK_BIT)
        ((0 : Nat) ||| WRAP_INCR (rb.next &&& WRAP_COUNTER))
      have hz : ((0 : Nat) ||| WRAP_INCR (rb.next &&& WRAP_COUNTER))
            &&& WRAP_LOCK_BIT = 0 := by
        rw [htgt]
        exact land_lock_eq_zero (by omega)
      have hcond : ¬(((0 : Nat) ||| WRAP_INCR (rb.next &&& WRAP_COUNTER))
            &&& WRAP_LOCK_BIT ≠ 0) := fun hne => hne hz
      rw [if_neg hcond] at hproj
      obtain ⟨hsp', hwr', hres, hnx, hend⟩ := hproj
      rw [hres] at h
      have hwi : wi = rb.free_workers &&& RBUF_OFF_MASK
          ∧ off = rb.next &&& RBUF_OFF_MASK := by
        have hpq := Option.some.inj h.symm
        exact ⟨congrArg Prod.fst hpq, congrArg Prod.snd hpq⟩
      exact ⟨hwi.1, hsp', hwr', h1,
        Or.inr (Or.inl ⟨hfit, hwpos, hwi.2, by rw [hnx, htgt], hend⟩)⟩
    · -- no wrap
      have hlt : (rb.next &&& RBUF_OFF_MASK) + len < rb.space := by omega
      have ht32 : (rb.next &&& RBUF_OFF_MASK) + len < 2 ^ 32 := by
        have : RBUF_OFF_MASK < 2 ^ 32 := by norm_num [RBUF_OFF_MASK]
        omega
      have htgt : ((rb.next &&& RBUF_OFF_MASK) + len)
            ||| (rb.next &&& WRAP_COUNTER)
          = 2 ^ 32 * (rb.next / 2 ^ 32)
            + ((rb.next &&& RBUF_OFF_MASK) + len) :=
        target_nonwrap hn ht32
      have hproj := acquire_commit_proj
        ({ rb with
            free_workers :=
              ((getw rb.workers (rb.free_workers &&& RBUF_OFF_MASK)).next
                &&& RBUF_OFF_MASK) ||| WRAP_INCR rb.free_workers,
            workers := setw rb.workers (rb.free_workers &&& RBUF_OFF_MASK)
              { getw rb.workers (rb.free_workers &&& RBUF_OFF_MASK) with
                  next := WORKER_NULL } })
        (rb.free_workers &&& RBUF_OFF_MASK) (rb.next &&& RBUF_OFF_MASK)
        ((rb.next &&& RBUF_OFF_MASK) ||| WRAP_LOCK_BIT)
        (((rb.next &&& RBUF_OFF_MASK) + len) ||| (rb.next &&& WRAP_COUNTER))
      have hz : (((rb.next &&& RBUF_OFF_MASK) + len)
            ||| (rb.next &&& WRAP_COUNTER)) &&& WRAP_LOCK_BIT = 0 := by
        rw [htgt]
        exact land_lock_eq_zero (by omega)
      have hcond : ¬((((rb.next &&& RBUF_OFF_MASK) + len)
            ||| (rb.next &&& WRAP_COUNTER)) &&& WRAP_LOCK_BIT ≠ 0) := fun hne => hne hz
      rw [if_neg hcond] at hproj
      obtain ⟨hsp', hwr', hres, hnx, hend⟩ := hproj
      rw [hres] at h
      have hwi : wi = rb.free_workers &&& RBUF_OFF_MASK
          ∧ off = rb.next &&& RBUF_OFF_MASK := by
        have hpq := Option.some.inj h.symm
        exact ⟨congrArg Prod.fst hpq, congrArg Prod.snd hpq⟩
      exact ⟨hwi.1, hsp', hwr', h1,
        Or.inl ⟨hlt, hwi.2, by rw [hnx, htgt], hend⟩⟩

/-- `ringbuf_consume` never changes `space` or `next`, and either
leaves `written` alone or (on the wrap-around transition) resets it
to `0`. -/
theorem consume_loop_state :
    ∀ (fuel : Nat) (rb : ringbuf) (written : Nat),
      (consume_loop fuel rb written).1.space = rb.space ∧
      (consume_loop fuel rb written).1.next = rb.next ∧
      ((consume_loop fuel rb written).1.written = rb.written ∨
        (consume_loop fuel rb written).1.written = 0) := by
  intro fuel
  induction fuel with
  | zero => exact fun rb written => ⟨rfl, rfl, Or.inl rfl⟩
  | succ n ih =>
    intro rb written
    simp only [consume_loop]
    split
    · exact ⟨rfl, rfl, Or.inl rfl⟩
    obtain ⟨hs, hn, hw, he, -⟩ :=
      consume_scan_state written (rb.workers.length + 1) rb none RBUF_OFF_MAX
    split
    · split
      · obtain ⟨ihs, ihn, ihw⟩ := ih _ 0
        refine ⟨ihs.trans hs, ihn.trans hn, ?_⟩
        rcases ihw with hcase | hcase
        · exact Or.inr hcase
        · exact Or.inr hcase
      · exact ⟨hs, hn, Or.inl hw⟩
    · exact ⟨hs, hn, Or.inl hw⟩

theorem ringbuf_consume_state (rb : ringbuf) :
    (ringbuf_consume rb).1.space = rb.space ∧
    (ringbuf_consume rb).1.next = rb.next ∧
    ((ringbuf_consume rb).1.written = rb.written ∨
      (ringbuf_consume rb).1.written = 0) :=
  consume_loop_state 2 rb rb.written

/-- The sequential state invariant, proved by induction over `Steps`:
bounded capacity, consumer behind capacity, a lock-free `next` word
whose wrap counter equals the wrap count mod `2^31`, and (for nonzero
capacity) a position strictly below `space`. -/
theorem steps_inv {rb : ringbuf} {k : Nat} (h : Steps rb k) :
    rb.space < RBUF_OFF_MASK ∧ rb.written ≤ rb.space ∧ rb.next < 2 ^ 63 ∧
    rb.next / 2 ^ 32 = k % 2 ^ 31 ∧
    (0 < rb.space → rb.next &&& RBUF_OFF_MASK < rb.space) := by
  induction h with
  | init junk nworkers length hlen =>
    rw [ringbuf_setup, if_neg (not_le_of_lt hlen)]
    refine ⟨hlen, Nat.zero_le _, by norm_num, by norm_num, ?_⟩
    intro hpos
    rw [land_off_mask]
    simpa using hpos
  | acq len hs h0 h1 ih =>
    obtain ⟨iA, iB, iC, iD, iE⟩ := ih
    rename_i rb0 k0
    cases hres : (ringbuf_acquire rb0 len).2 with
    | none =>
      obtain ⟨e1, e2, e3, -⟩ := acquire_fail_state rb0 len hres
      have hcnt : acquire_wrap_count rb0 len = 0 := by
        rw [acquire_wrap_count, if_neg]
        rintro ⟨hsome, -⟩
        rw [hres] at hsome
        exact absurd hsome (by simp)
      rw [e1, e2, e3, hcnt, Nat.add_zero]
      exact ⟨iA, iB, iC, iD, iE⟩
    | some p =>
      have hRA : RBUF_OFF_MASK = 2 ^ 32 - 1 := by norm_num [RBUF_OFF_MASK]
      have hl32 : len < 2 ^ 32 := by omega
      have hpos32 : rb0.next &&& RBUF_OFF_MASK < 2 ^ 32 := by
        rw [land_off_mask]; exact Nat.mod_lt _ (by norm_num)
      have hdiv : rb0.next / 2 ^ 32 < 2 ^ 31 := by omega
      obtain ⟨-, hsp', hwr', hguard, hcases⟩ :=
        acquire_success_spec rb0 len p.1 p.2 iA iC h1 (by rw [hres])
      have hsome : ((ringbuf_acquire rb0 len).2).isSome := by
        rw [hres]; rfl
      have hspspos : 0 < rb0.space := lt_of_lt_of_le h0 h1
      rcases hcases with ⟨hlt, -, hnx, hend⟩ | ⟨hfit, hwpos, -, hnx, hend⟩
        | ⟨hexc, hlw, -, hnx, hend⟩
      · have hcnt : acquire_wrap_count rb0 len = 0 := by
          rw [acquire_wrap_count, if_neg]
          rintro ⟨-, hge⟩
          omega
        rw [hsp', hwr', hnx, hcnt, Nat.add_zero]
        refine ⟨iA, iB, by omega, ?_, ?_⟩
        · rw [Nat.mul_add_div (by norm_num), Nat.div_eq_of_lt
            (by omega : (rb0.next &&& RBUF_OFF_MASK) + len < 2 ^ 32)]
          omega
        · intro _
          rw [land_off_mask (2 ^ 32 * (rb0.next / 2 ^ 32)
            + ((rb0.next &&& RBUF_OFF_MASK) + len))]
          omega
      · have hcnt : acquire_wrap_count rb0 len = 1 := by
          rw [acquire_wrap_count, if_pos ⟨hsome, by omega⟩]
        rw [hsp', hwr', hnx, hcnt]
        refine ⟨iA, iB, by omega, ?_, ?_⟩
        · rw [Nat.mul_div_cancel_left _ (by norm_num : (0:Nat) < 2 ^ 32)]
          omega
        · intro _
          rw [land_off_mask (2 ^ 32 * ((rb0.next / 2 ^ 32 + 1) % 2 ^ 31))]
          omega
      · have hcnt : acquire_wrap_count rb0 len = 1 := by
          rw [acquire_wrap_count, if_pos ⟨hsome, by omega⟩]
        rw [hsp', hwr', hnx, hcnt]
        have hmod : (rb0.next / 2 ^ 32 + 1) % 2 ^ 31 < 2 ^ 31 :=
          Nat.mod_lt _ (by norm_num)
        refine ⟨iA, iB, by omega, ?_, ?_⟩
        · rw [Nat.mul_add_div (by norm_num), Nat.div_eq_of_lt hl32]
          omega
        · intro _
          rw [land_off_mask (2 ^ 32 * ((rb0.next / 2 ^ 32 + 1) % 2 ^ 31) + len)]
          omega
  | produce wi hs ih =>
    exact ih
  | consume hs ih =>
    rename_i rb0 k0
    obtain ⟨iA, iB, iC, iD, iE⟩ := ih
    obtain ⟨hs', hn', hw'⟩ := ringbuf_consume_state rb0
    rw [hs', hn']
    rcases hw' with hcase | hcase <;> rw [hcase]
    · exact ⟨iA, iB, iC, iD, iE⟩
    · exact ⟨iA, Nat.zero_le _, iC, iD, iE⟩
  | release n hs h1 ih =>
    obtain ⟨iA, iB, iC, iD, iE⟩ := ih
    rename_i rb0 k0
    refine ⟨iA, ?_, iC, iD, iE⟩
    rw [ringbuf_release]
    dsimp only
    split <;> omega

/-- A failing `ringbuf_acquire` leaves the free-stack contents as they
were: the popped worker is pushed right back on top. -/
theorem acquire_fail_freestack (rb : ringbuf) (len : Nat) (fl : List Nat)
    (hfl : StackOk rb.workers rb.free_workers fl)
    (h : (ringbuf_acquire rb len).2 = none) :
    StackOk (ringbuf_acquire rb len).1.workers
      (ringbuf_acquire rb len).1.free_workers fl := by
  obtain ⟨hrep, hnd, hlen⟩ := hfl
  by_cases hfree : rb.free_workers &&& RBUF_OFF_MASK = WORKER_NULL
  · rw [ringbuf_acquire, acquire_precas_empty rb hfree]
    exact ⟨hrep, hnd, hlen⟩
  · -- the free-stack is nonempty, so its contents start with the popped worker
    match fl, hrep with
    | [], hrep => exact absurd (by rwa [repStack, beq_iff_eq] at hrep) hfree
    | wi :: rest, hrep =>
      rw [repStack, Bool.and_eq_true, Bool.and_eq_true, beq_iff_eq] at hrep
      obtain ⟨⟨hOff, hwiLen⟩, hrest⟩ := hrep
      have hwiLen' : wi < rb.workers.length := of_decide_eq_true hwiLen
      have hwi32 : wi < 2 ^ 32 := by
        have : WORKER_NULL < 2 ^ 32 := by norm_num [WORKER_NULL]
        omega
      have hirest : wi ∉ rest := (List.nodup_cons.mp hnd).1
      have hkey : ∀ ws2 : List ringbuf_worker,
          ws2 = setw (setw rb.workers wi
              { getw rb.workers wi with next := WORKER_NULL }) wi
            { getw (setw rb.workers wi
                { getw rb.workers wi with next := WORKER_NULL }) wi with
              next := (((getw rb.workers wi).next &&& RBUF_OFF_MASK)
                ||| WRAP_INCR rb.free_workers) &&& RBUF_OFF_MASK } →
          StackOk ws2
            (wi ||| WRAP_INCR (((getw rb.workers wi).next &&& RBUF_OFF_MASK)
              ||| WRAP_INCR rb.free_workers)) (wi :: rest) := by
        intro ws2 hws2
        have hlen2 : ws2.length = rb.workers.length := by
          rw [hws2, setw_length, setw_length]
        have hnext32 : (getw rb.workers wi).next &&& RBUF_OFF_MASK < 2 ^ 32 := by
          rw [land_off_mask]; exact Nat.mod_lt _ (by norm_num)
        have hgw : getw ws2 wi = { getw (setw rb.workers wi
            { getw rb.workers wi with next := WORKER_NULL }) wi with
              next := (((getw rb.workers wi).next &&& RBUF_OFF_MASK)
                ||| WRAP_INCR rb.free_workers) &&& RBUF_OFF_MASK } := by
          rw [hws2]
          exact getw_setw_self _ (by rw [setw_length]; exact hwiLen') _
        have hsame : ∀ j ∈ rest, getw ws2 j = getw rb.workers j := by
          intro j hj
          have hji : wi ≠ j := fun he => hirest (he ▸ hj)
          rw [hws2, getw_setw_ne _ hji, getw_setw_ne _ hji]
        refine ⟨?_, hnd, by rw [hlen2]; exact hlen⟩
        rw [repStack, Bool.and_eq_true, Bool.and_eq_true]
        refine ⟨⟨?_, ?_⟩, ?_⟩
        · rw [beq_iff_eq, lor_wrap_incr_mask _ hwi32]
        · exact decide_eq_true (by rw [hlen2]; exact hwiLen')
        · have hmask : (getw ws2 wi).next &&& RBUF_OFF_MASK
              = (getw rb.workers wi).next &&& RBUF_OFF_MASK := by
            rw [hgw]
            show ((((getw rb.workers wi).next &&& RBUF_OFF_MASK)
              ||| WRAP_INCR rb.free_workers) &&& RBUF_OFF_MASK)
                &&& RBUF_OFF_MASK = _
            rw [lor_wrap_incr_mask _ hnext32, Nat.and_assoc, Nat.and_self]
          rw [← repStack_mask rest hmask]
          exact repStack_congr hlen2 hsame hrest
      rw [ringbuf_acquire, acquire_precas_pop rb hfree] at h ⊢
      dsimp only at h ⊢
      rw [hOff] at h ⊢
      split_ifs at h ⊢ <;>
        first
          | exact absurd h (acquire_commit_ne_none _ _ _ _ _)
          | exact hkey _ (by simp [push_worker, getw, setw])

/-- `acquire_precas` pops the top of the free-stack and does not touch
its `seen_off` (which the C code asserts to be `RBUF_OFF_MAX`). -/
theorem acquire_precas_seen (rb rb1 : ringbuf) (wi : Nat)
    (hwi : rb.free_workers &&& RBUF_OFF_MASK < rb.workers.length)
    (h : acquire_precas rb = some (rb1, wi)) :
    wi = rb.free_workers &&& RBUF_OFF_MASK ∧
    (getw rb1.workers wi).seen_off
      = (getw rb.workers (rb.free_workers &&& RBUF_OFF_MASK)).seen_off := by
  by_cases hfree : rb.free_workers &&& RBUF_OFF_MASK = WORKER_NULL
  · rw [acquire_precas_empty rb hfree] at h
    exact absurd h (by simp)
  · rw [acquire_precas_pop rb hfree] at h
    have hp := Option.some.inj h.symm
    have hrb1 : rb1 = { rb with
        free_workers :=
          ((getw rb.workers (rb.free_workers &&& RBUF_OFF_MASK)).next
            &&& RBUF_OFF_MASK) ||| WRAP_INCR rb.free_workers,
        workers := setw rb.workers (rb.free_workers &&& RBUF_OFF_MASK)
          { getw rb.workers (rb.free_workers &&& RBUF_OFF_MASK) with
              next := WORKER_NULL } } := congrArg Prod.fst hp
    have hwi' : wi = rb.free_workers &&& RBUF_OFF_MASK := congrArg Prod.snd hp
    refine ⟨hwi', ?_⟩
    rw [hrb1, hwi']
    dsimp only
    rw [getw_setw_self _ hwi]

/-- The seen value stored after a successful CAS: the worker handed
back by `ringbuf_acquire` carries exactly the observed position, with
no unstable bit. -/
theorem acquire_commit_seen (rb1 : ringbuf) (wi next seen_off target : Nat)
    (hwi : wi < rb1.workers.length) :
    (getw (acquire_commit rb1 wi next seen_off target).1.workers wi).seen_off
      = seen_off &&& RBUF_OFF_MAX := by
  have h1 : wi < (setw rb1.workers wi
      { getw rb1.workers wi with
          seen_off := seen_off &&& RBUF_OFF_MAX }).length := by
    rw [setw_length]; exact hwi
  unfold acquire_commit push_worker
  split <;>
    · dsimp only
      rw [getw_setw_self _ h1, getw_setw_self _ hwi]

theorem acquire_success_seen (rb : ringbuf) (len wi off : Nat)
    (hwi : rb.free_workers &&& RBUF_OFF_MASK < rb.workers.length)
    (h : (ringbuf_acquire rb len).2 = some (wi, off)) :
    (getw (ringbuf_acquire rb len).1.workers
        (rb.free_workers &&& RBUF_OFF_MASK)).seen_off
      = rb.next &&& RBUF_OFF_MASK := by
  have hpos32 : rb.next &&& RBUF_OFF_MASK < 2 ^ 32 := by
    rw [land_off_mask]; exact Nat.mod_lt _ (by norm_num)
  by_cases hfree : rb.free_workers &&& RBUF_OFF_MASK = WORKER_NULL
  · rw [ringbuf_acquire, acquire_precas_empty rb hfree] at h
    exact absurd h (by simp)
  · rw [ringbuf_acquire, acquire_precas_pop rb hfree] at h ⊢
    dsimp only at h ⊢
    have hwi1 : rb.free_workers &&& RBUF_OFF_MASK
        < (setw rb.workers (rb.free_workers &&& RBUF_OFF_MASK)
            { getw rb.workers (rb.free_workers &&& RBUF_OFF_MASK) with
                next := WORKER_NULL }).length := by
      rw [setw_length]; exact hwi
    split_ifs at h ⊢ <;>
      · rw [acquire_commit_seen _ _ _ _ _ hwi1, seen_store_eq hpos32]

/-! ### Claims -/

/-- C1 (counterexample): the claim's "equivalently, no returned
`(offset, len)` satisfies `offset <= written < offset + len`" clause is
false on the code: the very first `acquire(1)` on a fresh ring returns
offset `0` while `written = 0`, and `0 <= 0 < 0 + 1`. -/
theorem claim_C1_counterexample :
    (ringbuf_acquire demoRing 1).2 = some (1, 0) ∧
    0 ≤ demoRing.written ∧ demoRing.written < 0 + 1 := by
  refine ⟨by decide, Nat.zero_le _, by decide⟩

/-- C1 (amended): a successful `acquire` of `len` (with
`0 < len <= space`, on a state satisfying the ring invariants) returns
an offset `p` with: if `p < written` then `p + len < written`; if
`p >= written` then `p + len <= space`; equivalently no returned range
satisfies `offset < written < offset + len` (offset `= written` occurs
legitimately when the ring is empty). -/
theorem claim_C1 (rb : ringbuf) (len wi p : Nat)
    (_h0 : 0 < len) (hlen : len ≤ rb.space)
    (hsp : rb.space < RBUF_OFF_MASK) (hn : rb.next < 2 ^ 63)
    (_hw : rb.written ≤ rb.space)
    (h : (ringbuf_acquire rb len).2 = some (wi, p)) :
    (p < rb.written → p + len < rb.written) ∧
    (rb.written ≤ p → p + len ≤ rb.space) ∧
    ¬(p < rb.written ∧ rb.written < p + len) := by
  obtain ⟨-, -, -, hguard, hcases⟩ :=
    acquire_success_spec rb len wi p hsp hn hlen h
  rcases hcases with ⟨hlt, hoff, -, -⟩ | ⟨hfit, hwpos, hoff, -, -⟩
    | ⟨hexc, hlw, hoff, -, -⟩ <;> subst hoff <;>
    exact ⟨by omega, by omega, by omega⟩

/-- C1 (witness): the amended claim applied to the first acquire on a
fresh ring. -/
theorem claim_C1_witness :
    (0 < 1 ∧ 1 ≤ demoRing.space ∧ demoRing.space < RBUF_OFF_MASK
      ∧ demoRing.next < 2 ^ 63 ∧ demoRing.written ≤ demoRing.space
      ∧ (ringbuf_acquire demoRing 1).2 = some (1, 0)) ∧
    ((0 < demoRing.written → 0 + 1 < demoRing.written) ∧
     (demoRing.written ≤ 0 → 0 + 1 ≤ demoRing.space) ∧
     ¬(0 < demoRing.written ∧ demoRing.written < 0 + 1)) :=
  ⟨⟨by decide, by decide, by decide, by decide, by decide, by decide⟩,
   claim_C1 demoRing 1 1 0 (by decide) (by decide) (by decide) (by decide)
     (by decide) (by decide)⟩

/-- C6 (counterexample): `ringbuf_setup` with capacity `0` succeeds
(returns `0`), refuting "succeeds exactly when `1 <= space`": the code
only checks `length >= RBUF_OFF_MASK`. -/
theorem claim_C6_counterexample :
    (ringbuf_setup junkState 2 0).2.1 = 0 ∧ ¬(1 ≤ (0 : Nat)) := by
  exact ⟨by decide, by decide⟩

/-- C6 (amended): `ringbuf_setup` succeeds exactly when the requested
capacity satisfies `space <= 2^32 - 2` (i.e. `space < RBUF_OFF_MASK`;
`space = 0` is accepted), and otherwise refuses with `EINVAL`, leaving
the ring memory unmodified. -/
theorem claim_C6 (rb : ringbuf) (nworkers length : Nat) :
    ((ringbuf_setup rb nworkers length).2.1 = 0 ↔ length < RBUF_OFF_MASK) ∧
    ((ringbuf_setup rb nworkers length).2.1 ≠ 0 →
      (ringbuf_setup rb nworkers length).1 = rb ∧
      (ringbuf_setup rb nworkers length).2.2 = some EINVAL) ∧
    ((ringbuf_setup rb nworkers length).2.1 = 0 →
      (ringbuf_setup rb nworkers length).2.2 = none) := by
  rw [ringbuf_setup]
  split_ifs with hc
  · exact ⟨iff_of_false (by norm_num) (not_lt.2 hc),
      fun _ => ⟨rfl, rfl⟩, fun habs => absurd habs (by norm_num)⟩
  · exact ⟨iff_of_true rfl (not_le.mp hc),
      fun habs => absurd rfl habs, fun _ => rfl⟩

/-- C7: in any state reachable with `K` wrapping acquires (both the
wrap-lock branch and the exact-fit branch go through `WRAP_INCR`, and
non-wrapping acquires preserve the counter), the wrap-generation bits
`[32..63)` of `next` equal `K mod 2^31`. -/
theorem claim_C7 {rb : ringbuf} {k : Nat} (h : Steps rb k) :
    (rb.next &&& WRAP_COUNTER) >>> 32 = k % 2 ^ 31 := by
  obtain ⟨-, -, -, iD, -⟩ := steps_inv h
  rw [land_wrap_counter, Nat.shiftRight_eq_div_pow,
    Nat.mul_div_cancel_left _ (by norm_num : (0 : Nat) < 2 ^ 32)]
  omega

/-- C7 (witness): the freshly set-up ring has wrap counter `0`. -/
theorem claim_C7_witness :
    ((ringbuf_setup junkState 2 1000).1.next &&& WRAP_COUNTER) >>> 32
      = 0 % 2 ^ 31 :=
  claim_C7 (Steps.init junkState 2 1000 (by decide))

/-- C9: in every reachable state, `acquire` of the full capacity
`space` fails: the don't-lap check, the exact-fit check (`written = 0`)
or the wrap check (`len >= written`) rejects it, so at most
`space - 1` bytes can be outstanding. -/
theorem claim_C9 {rb : ringbuf} {k : Nat} (h : Steps rb k) :
    (ringbuf_acquire rb rb.space).2 = none := by
  obtain ⟨iA, iB, -, -, -⟩ := steps_inv h
  have hRA : RBUF_OFF_MASK = 2 ^ 32 - 1 := by norm_num [RBUF_OFF_MASK]
  rw [acquire_fail_iff rb rb.space (by omega)]
  by_cases hfree : rb.free_workers &&& RBUF_OFF_MASK = WORKER_NULL
  · exact Or.inl hfree
  right
  by_cases hpos : rb.next &&& RBUF_OFF_MASK = 0
  · by_cases hw0 : rb.written = 0
    · right
      refine ⟨by omega, ?_⟩
      rw [hpos, if_neg (by omega)]
      omega
    · left
      exact ⟨by omega, by omega⟩
  · right
    refine ⟨by omega, ?_⟩
    rw [if_pos (by omega)]
    omega

/-- C9 (witness): acquiring the full capacity on a fresh ring fails. -/
theorem claim_C9_witness : (ringbuf_acquire demoRing demoRing.space).2 = none :=
  claim_C9 (Steps.init junkState 2 1000 (by decide))

/-- C10 (counterexample): `ringbuf_setup` accepts capacity `0`, and in
the resulting (reachable) state the position field of `next` equals
`space` (`0 = 0`), refuting "strictly less than `space` after setup and
after every operation". -/
theorem claim_C10_counterexample :
    Steps (ringbuf_setup junkState 2 0).1 0 ∧
    ¬((ringbuf_setup junkState 2 0).1.next &&& RBUF_OFF_MASK
        < (ringbuf_setup junkState 2 0).1.space) :=
  ⟨Steps.init junkState 2 0 (by decide), by decide⟩

/-- C10 (amended): in every reachable state of a ring with nonzero
capacity, the position field of `next` is strictly less than `space`
(a wrapping acquire resets it to `0` or to `len` rather than storing
`space`). -/
theorem claim_C10 {rb : ringbuf} {k : Nat} (h : Steps rb k)
    (hpos : 0 < rb.space) : rb.next &&& RBUF_OFF_MASK < rb.space :=
  (steps_inv h).2.2.2.2 hpos

/-- C10 (witness): the amended claim on a fresh nonzero-capacity ring. -/
theorem claim_C10_witness :
    0 < (ringbuf_setup junkState 2 1000).1.space ∧
    (ringbuf_setup junkState 2 1000).1.next &&& RBUF_OFF_MASK
      < (ringbuf_setup junkState 2 1000).1.space :=
  ⟨by decide, claim_C10 (Steps.init junkState 2 1000 (by decide)) (by decide)⟩

/-- C4: `acquire(len)` (with `0 < len <= space`) fails exactly when the
free worker-pool is empty, or the reservation would lap the consumer
directly (`pos < written` and `pos + len >= written`), or after
wrapping (the post-wrap position's range — `len` bytes from `0` when
exceeding, the empty range at `0` on an exact fit — reaches `written`);
on every failure the popped slot is back on the free-stack (same
contents) and the `next` word is unchanged. -/
theorem claim_C4 (rb : ringbuf) (len : Nat) (fl : List Nat)
    (_h0 : 0 < len) (hlen : len ≤ rb.space) (hsp : rb.space < RBUF_OFF_MASK)
    (hfl : StackOk rb.workers rb.free_workers fl) :
    ((ringbuf_acquire rb len).2 = none ↔
      (rb.free_workers &&& RBUF_OFF_MASK = WORKER_NULL
      ∨ (rb.next &&& RBUF_OFF_MASK < rb.written
          ∧ rb.written ≤ (rb.next &&& RBUF_OFF_MASK) + len)
      ∨ (rb.space ≤ (rb.next &&& RBUF_OFF_MASK) + len
          ∧ rb.written ≤ (if rb.space < (rb.next &&& RBUF_OFF_MASK) + len
              then len else 0)))) ∧
    ((ringbuf_acquire rb len).2 = none →
      (ringbuf_acquire rb len).1.next = rb.next ∧
      StackOk (ringbuf_acquire rb len).1.workers
        (ringbuf_acquire rb len).1.free_workers fl) := by
  have hRA : RBUF_OFF_MASK = 2 ^ 32 - 1 := by norm_num [RBUF_OFF_MASK]
  exact ⟨acquire_fail_iff rb len (by omega),
    fun h => ⟨(acquire_fail_state rb len h).1,
      acquire_fail_freestack rb len fl hfl h⟩⟩

/-- C4 (witness): the characterization applied to a fresh ring (free
stack `[1, 0]`), where `acquire(5)` succeeds so both iff sides are
false. -/
theorem claim_C4_witness :
    (0 < 5 ∧ 5 ≤ demoRing.space ∧ demoRing.space < RBUF_OFF_MASK
      ∧ StackOk demoRing.workers demoRing.free_workers [1, 0]) ∧
    (((ringbuf_acquire demoRing 5).2 = none ↔
      (demoRing.free_workers &&& RBUF_OFF_MASK = WORKER_NULL
      ∨ (demoRing.next &&& RBUF_OFF_MASK < demoRing.written
          ∧ demoRing.written ≤ (demoRing.next &&& RBUF_OFF_MASK) + 5)
      ∨ (demoRing.space ≤ (demoRing.next &&& RBUF_OFF_MASK) + 5
          ∧ demoRing.written
            ≤ (if demoRing.space < (demoRing.next &&& RBUF_OFF_MASK) + 5
                then 5 else 0)))) ∧
    ((ringbuf_acquire demoRing 5).2 = none →
      (ringbuf_acquire demoRing 5).1.next = demoRing.next ∧
      StackOk (ringbuf_acquire demoRing 5).1.workers
        (ringbuf_acquire demoRing 5).1.free_workers [1, 0])) :=
  ⟨⟨by decide, by decide, by decide, by decide, by decide, by decide⟩,
   claim_C4 demoRing 5 [1, 0] (by decide) (by decide) (by decide)
     ⟨by decide, by decide, by decide⟩⟩

/-- C5 (counterexample): at the point just before the CAS on `next`
(i.e. after the free-stack pop, the only stores on that path), the
popped slot's `seen_off` still holds the `RBUF_OFF_MAX` sentinel — the
code never writes `next | WRAP_LOCK_BIT` into the slot; that value
lives only in the local variable `seen_off`. -/
theorem claim_C5_counterexample :
    (acquire_precas demoRing).map
        (fun q => (getw q.1.workers q.2).seen_off) = some RBUF_OFF_MAX ∧
    RBUF_OFF_MAX ≠ (demoRing.next &&& RBUF_OFF_MASK) ||| WRAP_LOCK_BIT :=
  ⟨by decide, by decide⟩

/-- C5 (amended): during `acquire` the observed position with the
unstable bit set is kept only in a local variable; the slot's `seen_off`
field keeps the `RBUF_OFF_MAX` sentinel up to the CAS, and only after
the CAS succeeds is it stored — already stable: the observed position
with the unstable bit clear — before the slot is pushed onto the
used-stack. -/
theorem claim_C5 (rb : ringbuf) (len wi off : Nat)
    (hwi : rb.free_workers &&& RBUF_OFF_MASK < rb.workers.length)
    (hseen : (getw rb.workers (rb.free_workers &&& RBUF_OFF_MASK)).seen_off
      = RBUF_OFF_MAX)
    (h : (ringbuf_acquire rb len).2 = some (wi, off)) :
    (∀ rb1 wi', acquire_precas rb = some (rb1, wi') →
        wi' = rb.free_workers &&& RBUF_OFF_MASK ∧
        (getw rb1.workers wi').seen_off = RBUF_OFF_MAX) ∧
    (getw (ringbuf_acquire rb len).1.workers
        (rb.free_workers &&& RBUF_OFF_MASK)).seen_off
      = rb.next &&& RBUF_OFF_MASK ∧
    (rb.next &&& RBUF_OFF_MASK) &&& WRAP_LOCK_BIT = 0 := by
  refine ⟨?_, acquire_success_seen rb len wi off hwi h, ?_⟩
  · intro rb1 wi' hpre
    obtain ⟨hw', hs'⟩ := acquire_precas_seen rb rb1 wi' hwi hpre
    exact ⟨hw', by rw [hs', hseen]⟩
  · have hpos32 : rb.next &&& RBUF_OFF_MASK < 2 ^ 32 := by
      rw [land_off_mask]; exact Nat.mod_lt _ (by norm_num)
    exact land_lock_eq_zero (by omega)

/-- C5 (witness): the amended claim on the first `acquire(4)` of a
fresh ring. -/
theorem claim_C5_witness :
    (demoRing.free_workers &&& RBUF_OFF_MASK < demoRing.workers.length
      ∧ (getw demoRing.workers
          (demoRing.free_workers &&& RBUF_OFF_MASK)).seen_off = RBUF_OFF_MAX
      ∧ (ringbuf_acquire demoRing 4).2 = some (1, 0)) ∧
    ((∀ rb1 wi', acquire_precas demoRing = some (rb1, wi') →
        wi' = demoRing.free_workers &&& RBUF_OFF_MASK ∧
        (getw rb1.workers wi').seen_off = RBUF_OFF_MAX) ∧
    (getw (ringbuf_acquire demoRing 4).1.workers
        (demoRing.free_workers &&& RBUF_OFF_MASK)).seen_off
      = demoRing.next &&& RBUF_OFF_MASK ∧
    (demoRing.next &&& RBUF_OFF_MASK) &&& WRAP_LOCK_BIT = 0) :=
  ⟨⟨by decide, by decide, by decide⟩,
   claim_C5 demoRing 4 1 0 (by decide) (by decide) (by decide)⟩

/-- C8 (counterexample): the stack-head version counter is not a
32-bit counter: with the version field at `2^31 - 1`, a push wraps it
to `0` (the increment is masked by `WRAP_COUNTER`, 31 bits), whereas a
32-bit counter would reach `2^31`. -/
theorem claim_C8_counterexample :
    (push_worker (2 ^ 32 * (2 ^ 31 - 1)) [] 0).1 / 2 ^ 32 = 0 ∧
    (2 ^ 32 * (2 ^ 31 - 1) / 2 ^ 32 + 1) % 2 ^ 32 = 2 ^ 31 ∧
    (0 : Nat) ≠ 2 ^ 31 :=
  ⟨by decide, by decide, by decide⟩

/-- C8 (amended): the stack head words pack a 32-bit slot index (or
`WORKER_NULL`) in the low bits together with a 31-bit version counter
in bits `[32..63)`, and every push, pop and interior unlink increments
that counter modulo `2^31` (`WRAP_INCR`). -/
theorem claim_C8 (h : Nat) (ws : List ringbuf_worker) (wi : Nat)
    (hwi : wi < 2 ^ 32) :
    (push_worker h ws wi).1
        = 2 ^ 32 * ((h / 2 ^ 32 + 1) % 2 ^ 31) + wi ∧
    (∀ wi' nh ws', pop_worker h ws = some (wi', nh, ws') →
        nh = 2 ^ 32 * ((h / 2 ^ 32 + 1) % 2 ^ 31)
          + ((getw ws (h &&& RBUF_OFF_MASK)).next &&& RBUF_OFF_MASK)) ∧
    (∀ (rb : ringbuf) (pw : Option Nat),
        (∀ j, pw = some j → j < rb.workers.length
          ∧ j ≠ h &&& RBUF_OFF_MASK) →
        readLink (try_unlink_worker rb pw h) pw
          = 2 ^ 32 * ((h / 2 ^ 32 + 1) % 2 ^ 31)
            + ((getw rb.workers (h &&& RBUF_OFF_MASK)).next
                &&& RBUF_OFF_MASK)) := by
  have hnmask : ∀ x : Nat, x &&& RBUF_OFF_MASK < 2 ^ 32 := by
    intro x; rw [land_off_mask]; exact Nat.mod_lt _ (by norm_num)
  refine ⟨?_, ?_, ?_⟩
  · show wi ||| WRAP_INCR h = _
    rw [wrap_incr_eq, lor_low_high hwi]
  · intro wi' nh ws' hpop
    rw [pop_worker] at hpop
    dsimp only at hpop
    split_ifs at hpop with hnull
    have hp := Option.some.inj hpop.symm
    have hnh : nh = ((getw ws (h &&& RBUF_OFF_MASK)).next &&& RBUF_OFF_MASK)
        ||| WRAP_INCR h := congrArg (fun q => q.2.1) hp
    rw [hnh, wrap_incr_eq, lor_low_high (hnmask _)]
  · intro rb pw hpw
    cases pw with
    | none =>
      show (try_unlink_worker rb none h).used_workers = _
      rw [try_unlink_worker]
      dsimp only [writeLink]
      rw [wrap_incr_eq, lor_low_high (hnmask _)]
    | some j =>
      obtain ⟨hjLen, hjne⟩ := hpw j rfl
      show (getw (try_unlink_worker rb (some j) h).workers j).next = _
      rw [try_unlink_worker]
      dsimp only [writeLink]
      rw [getw_setw_ne _ (Ne.symm hjne), getw_setw_self _ hjLen]
      dsimp only
      rw [wrap_incr_eq, lor_low_high (hnmask _)]

/-- C8 (witness): push, pop and unlink on small concrete stacks. -/
theorem claim_C8_witness :
    ((0 : Nat) < 2 ^ 32) ∧
    ((push_worker 5 demoRing.workers 0).1
        = 2 ^ 32 * ((5 / 2 ^ 32 + 1) % 2 ^ 31) + 0 ∧
    (∀ wi' nh ws', pop_worker 5 demoRing.workers = some (wi', nh, ws') →
        nh = 2 ^ 32 * ((5 / 2 ^ 32 + 1) % 2 ^ 31)
          + ((getw demoRing.workers (5 &&& RBUF_OFF_MASK)).next
              &&& RBUF_OFF_MASK)) ∧
    (∀ (rb : ringbuf) (pw : Option Nat),
        (∀ j, pw = some j → j < rb.workers.length
          ∧ j ≠ 5 &&& RBUF_OFF_MASK) →
        readLink (try_unlink_worker rb pw 5) pw
          = 2 ^ 32 * ((5 / 2 ^ 32 + 1) % 2 ^ 31)
            + ((getw rb.workers (5 &&& RBUF_OFF_MASK)).next
                &&& RBUF_OFF_MASK))) :=
  ⟨by decide, claim_C8 5 demoRing.workers 0 (by decide)⟩

/-- One-step unfolding of `consume_loop` with the branches spelled
out. -/
theorem consume_loop_succ (fuel : Nat) (rbuf : ringbuf) (written : Nat) :
    consume_loop (fuel + 1) rbuf written
      = if written = rbuf.next &&& RBUF_OFF_MASK then (rbuf, 0, none)
        else if rbuf.next &&& RBUF_OFF_MASK < written then
          (if (consume_scan written (rbuf.workers.length + 1) rbuf none
                RBUF_OFF_MAX).2 = RBUF_OFF_MAX
              ∧ written = min (consume_scan written (rbuf.workers.length + 1)
                  rbuf none RBUF_OFF_MAX).1.space
                (consume_scan written (rbuf.workers.length + 1) rbuf none
                  RBUF_OFF_MAX).1.end_ then
            consume_loop fuel
              { (consume_scan written (rbuf.workers.length + 1) rbuf none
                  RBUF_OFF_MAX).1 with end_ := RBUF_OFF_MAX, written := 0 } 0
          else
            ((consume_scan written (rbuf.workers.length + 1) rbuf none
                RBUF_OFF_MAX).1,
             min (consume_scan written (rbuf.workers.length + 1) rbuf none
                RBUF_OFF_MAX).2
              (min (consume_scan written (rbuf.workers.length + 1) rbuf none
                  RBUF_OFF_MAX).1.space
                (consume_scan written (rbuf.workers.length + 1) rbuf none
                  RBUF_OFF_MAX).1.end_) - written,
             some written))
        else
          ((consume_scan written (rbuf.workers.length + 1) rbuf none
              RBUF_OFF_MAX).1,
           min (consume_scan written (rbuf.workers.length + 1) rbuf none
              RBUF_OFF_MAX).2 (rbuf.next &&& RBUF_OFF_MASK) - written,
           some written) := by
  simp only [consume_loop]

/-- C2: with no wrap visible (`next.position >= written`), `consume`
returns length `min(ready, next.position) - written` where `ready` is
the smallest stable `seen_off` at or ahead of `written` among the
used-stack slots (`RBUF_OFF_MAX` when none), and when that length is
nonzero the returned offset is `written`. -/
theorem claim_C2 (rb : ringbuf) (l : List Nat)
    (hok : StackOk rb.workers rb.used_workers l)
    (_hlock : rb.next &&& WRAP_LOCK_BIT = 0)
    (_hstable : ∀ i ∈ l, (getw rb.workers i).seen_off &&& WRAP_LOCK_BIT = 0)
    (hnw : rb.written ≤ rb.next &&& RBUF_OFF_MASK) :
    (ringbuf_consume rb).2.1
      = min (readySpec rb.workers rb.written l) (rb.next &&& RBUF_OFF_MASK)
        - rb.written ∧
    ((ringbuf_consume rb).2.1 ≠ 0 →
      (ringbuf_consume rb).2.2 = some rb.written) := by
  obtain ⟨hrep, hnd, hlen⟩ := hok
  have hfuel : l.length < rb.workers.length + 1 :=
    Nat.lt_succ_of_le (nodup_bounded_length hnd (repStack_mem_lt hrep))
  have hscan := consume_scan_ready rb.written l (rb.workers.length + 1) rb none
    RBUF_OFF_MAX ⟨hrep, hnd, hlen, fun j hj => by cases hj⟩ hfuel (le_refl _)
  rw [ringbuf_consume, show (2 : Nat) = 1 + 1 from rfl, consume_loop_succ]
  by_cases hwn : rb.written = rb.next &&& RBUF_OFF_MASK
  · rw [if_pos hwn]
    have hmin := Nat.min_le_right
      (readySpec rb.workers rb.written l) (rb.next &&& RBUF_OFF_MASK)
    exact ⟨by dsimp only; omega, fun habs => absurd rfl habs⟩
  · rw [if_neg hwn, if_neg (by omega : ¬ rb.next &&& RBUF_OFF_MASK < rb.written)]
    rw [show (consume_scan rb.written (rb.workers.length + 1) rb none
        RBUF_OFF_MAX).2 = readySpec rb.workers rb.written l from hscan]
    exact ⟨rfl, fun _ => rfl⟩

/-- C2 (witness): a ring with one produced 4-byte record; `consume`
returns `(0, 4)`. -/
theorem claim_C2_witness :
    (StackOk demoProduced.workers demoProduced.used_workers [1]
      ∧ demoProduced.next &&& WRAP_LOCK_BIT = 0
      ∧ (∀ i ∈ [1], (getw demoProduced.workers i).seen_off
          &&& WRAP_LOCK_BIT = 0)
      ∧ demoProduced.written ≤ demoProduced.next &&& RBUF_OFF_MASK) ∧
    ((ringbuf_consume demoProduced).2.1
      = min (readySpec demoProduced.workers demoProduced.written [1])
          (demoProduced.next &&& RBUF_OFF_MASK) - demoProduced.written ∧
    ((ringbuf_consume demoProduced).2.1 ≠ 0 →
      (ringbuf_consume demoProduced).2.2 = some demoProduced.written)) :=
  ⟨⟨⟨by decide, by decide, by decide⟩, by decide, by decide, by decide⟩,
   claim_C2 demoProduced [1] ⟨by decide, by decide, by decide⟩ (by decide)
     (by decide) (by decide)⟩

/-- C3: with a wrap visible (`next.position < written`) and
`end = min(space, rbuf.end)`: if no in-flight slot constrains the scan
(`ready = RBUF_OFF_MAX`) and `written = end`, `consume` clears
`rbuf.end` to the `RBUF_OFF_MAX` sentinel, resets `written` to `0` and
restarts from the top (one more `consume_loop` frame on the rescanned
state); otherwise it returns the tail range
`(written, min(ready, end) - written)`. -/
theorem claim_C3 (rb : ringbuf) (l : List Nat)
    (hok : StackOk rb.workers rb.used_workers l)
    (_hlock : rb.next &&& WRAP_LOCK_BIT = 0)
    (_hstable : ∀ i ∈ l, (getw rb.workers i).seen_off &&& WRAP_LOCK_BIT = 0)
    (hwrap : rb.next &&& RBUF_OFF_MASK < rb.written) :
    ((readySpec rb.workers rb.written l = RBUF_OFF_MAX
        ∧ rb.written = min rb.space rb.end_) →
      ringbuf_consume rb
        = consume_loop 1
            { (consume_scan rb.written (rb.workers.length + 1) rb none
                RBUF_OFF_MAX).1 with end_ := RBUF_OFF_MAX, written := 0 } 0) ∧
    (¬(readySpec rb.workers rb.written l = RBUF_OFF_MAX
        ∧ rb.written = min rb.space rb.end_) →
      ringbuf_consume rb
        = ((consume_scan rb.written (rb.workers.length + 1) rb none
            RBUF_OFF_MAX).1,
           min (readySpec rb.workers rb.written l) (min rb.space rb.end_)
             - rb.written,
           some rb.written)) := by
  obtain ⟨hrep, hnd, hlen⟩ := hok
  have hfuel : l.length < rb.workers.length + 1 :=
    Nat.lt_succ_of_le (nodup_bounded_length hnd (repStack_mem_lt hrep))
  have hscan := consume_scan_ready rb.written l (rb.workers.length + 1) rb none
    RBUF_OFF_MAX ⟨hrep, hnd, hlen, fun j hj => by cases hj⟩ hfuel (le_refl _)
  have hscan2 : (consume_scan rb.written (rb.workers.length + 1) rb none
      RBUF_OFF_MAX).2 = readySpec rb.workers rb.written l := hscan
  obtain ⟨hsp, -, -, hend, -⟩ :=
    consume_scan_state rb.written (rb.workers.length + 1) rb none RBUF_OFF_MAX
  rw [ringbuf_consume, show (2 : Nat) = 1 + 1 from rfl, consume_loop_succ]
  rw [if_neg (by omega : ¬ rb.written = rb.next &&& RBUF_OFF_MASK),
    if_pos hwrap, hscan2, hsp, hend]
  constructor
  · intro hc
    rw [if_pos hc]
  · intro hc
    rw [if_neg hc]

/-- C3 (witness): a wrap-pending state with the tail fully drained and
no in-flight producer (`demoWrapped`): `consume` takes the reset-and-
restart branch. -/
theorem claim_C3_witness :
    (StackOk demoWrapped.workers demoWrapped.used_workers [1]
      ∧ demoWrapped.next &&& WRAP_LOCK_BIT = 0
      ∧ (∀ i ∈ [1], (getw demoWrapped.workers i).seen_off
          &&& WRAP_LOCK_BIT = 0)
      ∧ demoWrapped.next &&& RBUF_OFF_MASK < demoWrapped.written) ∧
    (((readySpec demoWrapped.workers demoWrapped.written [1] = RBUF_OFF_MAX
        ∧ demoWrapped.written = min demoWrapped.space demoWrapped.end_) →
      ringbuf_consume demoWrapped
        = consume_loop 1
            { (consume_scan demoWrapped.written
                (demoWrapped.workers.length + 1) demoWrapped none
                RBUF_OFF_MAX).1 with end_ := RBUF_OFF_MAX, written := 0 } 0) ∧
    (¬(readySpec demoWrapped.workers demoWrapped.written [1] = RBUF_OFF_MAX
        ∧ demoWrapped.written = min demoWrapped.space demoWrapped.end_) →
      ringbuf_consume demoWrapped
        = ((consume_scan demoWrapped.written
            (demoWrapped.workers.length + 1) demoWrapped none
            RBUF_OFF_MAX).1,
           min (readySpec demoWrapped.workers demoWrapped.written [1])
             (min demoWrapped.space demoWrapped.end_) - demoWrapped.written,
           some demoWrapped.written))) :=
  ⟨⟨⟨by decide, by decide, by decide⟩, by decide, by decide, by decide⟩,
   claim_C3 demoWrapped [1] ⟨by decide, by decide, by decide⟩ (by decide)
     (by decide) (by decide)⟩

end RB
